import Mathlib

/-!
Shallow embedding of the cell-collection core of the ckit repository
(`packages/ckit/src/providers/mercury/MercuryProvider.ts`), of the
`AcpTransferSudtBuilder.build` guard, and of the transaction-wait poller.

Modelling conventions:
* `BigInt` amounts and capacities are `Nat` (they are unsigned and
  arbitrary precision in the source); `0x`-prefixed hex strings that
  encode unsigned integers are modelled by the integers themselves,
  since the hex rendering is lossless.
* `output_data` is a hex string in the source; here it is the list of
  its bytes.  The source's `output_data.slice(0, 34)` keeps `0x` plus
  32 hex digits, i.e. the first 16 bytes, so it is `List.take 16`.
* The mercury client's `get_cells`, already specialised to one search
  key, is a function from the optional `after_cursor` to a page.
* Time (for the poller) advances only at `asyncSleep` calls; RPC calls
  themselves take no model time.
-/

namespace Ckit

/-- A CKB script (`@ckb-lumos/base` `Script`). -/
structure Script where
  code_hash : String
  hash_type : String
  args : String
deriving DecidableEq

/-- The `filter` part of a mercury `SearchKey`. -/
structure SearchFilter where
  script : Option Script
  output_data_len_range : Option (String × String)
deriving DecidableEq

/-- A mercury `SearchKey`. -/
structure SearchKey where
  script : Script
  script_type : String
  filter : SearchFilter
deriving DecidableEq

/-- A cell output: `capacity` plus an optional type script. -/
structure CellOutput where
  capacity : Nat
  type : Option Script
deriving DecidableEq

/-- A live cell as returned by mercury (`ResolvedOutpoint`):
its output and its `output_data` payload, given as bytes. -/
structure ResolvedOutpoint where
  output : CellOutput
  output_data : List Nat
deriving DecidableEq

/-- One `get_cells` response: a batch of cells plus the pagination
cursor for the next request. -/
structure Page where
  objects : List ResolvedOutpoint
  last_cursor : String
deriving DecidableEq

/-- The mercury indexer specialised to a fixed search key: a pure map
from the optional `after_cursor` of a request to its response page. -/
structure CellSource where
  get_cells : Option String → Page

/-- The accumulator threaded through `scan` in both collect
operations. -/
structure CellsAccumulator where
  cells : List ResolvedOutpoint
  amount : Nat
deriving DecidableEq

/-- The search key built by `collectCkbLiveCells` and
`getCkbLiveCellsBalance`: lock-script search restricted to cells whose
`output_data` length lies in the half-open range `['0x0', '0x1')`. -/
def ckbSearchKey (lock : Script) : SearchKey :=
  { script := lock
    script_type := "lock"
    filter := { script := none, output_data_len_range := some ("0x0", "0x1") } }

/-- The search key built by `collectUdtCells` and `getUdtBalance`:
lock-script search with a secondary type-script filter. -/
def udtSearchKey (lock : Script) (udt : Script) : SearchKey :=
  { script := lock
    script_type := "lock"
    filter := { script := some udt, output_data_len_range := none } }

/-- Little-endian base-256 decoding of a byte list. -/
def leDecode : List Nat → Nat
  | [] => 0
  | b :: bs => b + 256 * leDecode bs

/-- Little-endian base-256 encoding of `n` into `k` bytes. -/
def leEncode : Nat → Nat → List Nat
  | 0, _ => []
  | k + 1, n => n % 256 :: leEncode k (n / 256)

/-- `toBigUInt128LE` from `@lay2/pw-core`: decode a 16-byte
little-endian unsigned integer from the given bytes. -/
def toBigUInt128LE (data : List Nat) : Nat :=
  leDecode (data.take 16)

/-- Encode `n` as the 16-byte little-endian payload slot. -/
def toBytesUInt128LE (n : Nat) : List Nat :=
  leEncode 16 n

/-- The per-cell contribution used by the native (CKB) operations:
`BigInt(next.output.capacity)`. -/
def ckbCellValue (c : ResolvedOutpoint) : Nat :=
  c.output.capacity

/-- The per-cell contribution used by the UDT operations:
`BigInt(toBigUInt128LE(resolvedCell.output_data.slice(0, 34)))`, i.e.
the little-endian unsigned integer in the first 16 payload bytes. -/
def udtCellValue (c : ResolvedOutpoint) : Nat :=
  toBigUInt128LE c.output_data

/-- Sum of the per-cell contributions of a cell list. -/
def sumBy (f : ResolvedOutpoint → Nat) (cells : List ResolvedOutpoint) : Nat :=
  (cells.map f).sum

/-- The request/response trace of the `expand`-driven pagination loop:
the first request carries the given cursor, each later request carries
the `last_cursor` of the previous response, and the loop stops at the
first response whose `objects` list is empty (`takeWhile` on pages).
`fuel` bounds the number of requests, standing in for the eventual
exhaustion of a real indexer. -/
def fetchTrace (src : CellSource) : Nat → Option String → List (Option String × Page)
  | 0, _ => []
  | fuel + 1, cursor =>
    let page := src.get_cells cursor
    if page.objects.isEmpty then [(cursor, page)]
    else (cursor, page) :: fetchTrace src fuel (some page.last_cursor)

/-- All cells emitted downstream of the pagination loop
(`concatMap ((res) => res.objects)`), first request cursorless. -/
def allCells (src : CellSource) (fuel : Nat) : List ResolvedOutpoint :=
  ((fetchTrace src fuel none).map (fun pr => pr.2.objects)).flatten

/-- The cells reaching the native accumulator: the pipeline keeps only
cells with `cell.output.type == null`. -/
def ckbMatchedCells (src : CellSource) (fuel : Nat) : List ResolvedOutpoint :=
  (allCells src fuel).filter (fun c => c.output.type.isNone)

/-- One `scan` step: append the cell and add its contribution. -/
def scanStep (f : ResolvedOutpoint → Nat) (acc : CellsAccumulator)
    (next : ResolvedOutpoint) : CellsAccumulator :=
  { cells := acc.cells ++ [next], amount := acc.amount + f next }

/-- The emission sequence of rxjs `scan`: one accumulator per input
cell (the seed itself is not emitted). -/
def scanAccs (f : ResolvedOutpoint → Nat) (acc : CellsAccumulator) :
    List ResolvedOutpoint → List CellsAccumulator
  | [] => []
  | c :: cs =>
    let acc' := scanStep f acc c
    acc' :: scanAccs f acc' cs

/-- rxjs `takeWhile(pred, true)`: emit while the predicate holds and
also emit the first element on which it fails. -/
def takeWhileInclusive (p : α → Bool) : List α → List α
  | [] => []
  | x :: xs => if p x then x :: takeWhileInclusive p xs else [x]

/-- `lastValueFrom(cells$, { defaultValue: { amount: 0n, cells: [] } })`
over the `scan`/`takeWhile(·, true)` pipeline of both collectors. -/
def collectAccum (f : ResolvedOutpoint → Nat) (threshold : Nat)
    (cells : List ResolvedOutpoint) : CellsAccumulator :=
  ((takeWhileInclusive (fun acc => decide (acc.amount < threshold))
      (scanAccs f { cells := [], amount := 0 } cells)).getLast?).getD
    { cells := [], amount := 0 }

/-- `NoEnoughCkbError`'s payload (`expected`/`actual` are hex strings
in the source, lossless renderings of these numbers). -/
structure NoEnoughCkbError where
  lock : Script
  expected : Nat
  actual : Nat
deriving DecidableEq

/-- `NoEnoughUdtError`'s payload. -/
structure NoEnoughUdtError where
  lock : Script
  expected : Nat
  actual : Nat
deriving DecidableEq

/-- `MercuryProvider.collectCkbLiveCells`: paginate, drop cells with a
type script, accumulate capacities until `minimalCapacity` is reached
(inclusively), and fail with `NoEnoughCkbError` if the source was
exhausted first. -/
def collectCkbLiveCells (src : CellSource) (fuel : Nat) (lock : Script)
    (minimalCapacity : Nat) : Except NoEnoughCkbError (List ResolvedOutpoint) :=
  let acc := collectAccum ckbCellValue minimalCapacity (ckbMatchedCells src fuel)
  if acc.amount < minimalCapacity then
    .error { lock := lock, expected := minimalCapacity, actual := acc.amount }
  else
    .ok acc.cells

/-- `MercuryProvider.collectUdtCells`: paginate (the type-script filter
lives in the search key, so every emitted cell is accumulated),
accumulate decoded UDT amounts until `minimalAmount` is reached
(inclusively), failing with `NoEnoughUdtError` on exhaustion. -/
def collectUdtCells (src : CellSource) (fuel : Nat) (lock : Script)
    (minimalAmount : Nat) : Except NoEnoughUdtError (List ResolvedOutpoint) :=
  let acc := collectAccum udtCellValue minimalAmount (allCells src fuel)
  if acc.amount < minimalAmount then
    .error { lock := lock, expected := minimalAmount, actual := acc.amount }
  else
    .ok acc.cells

/-- `MercuryProvider.getCkbLiveCellsBalance`: full-scan `reduce` of the
capacities of all type-less cells across all pages. -/
def getCkbLiveCellsBalance (src : CellSource) (fuel : Nat) : Nat :=
  (ckbMatchedCells src fuel).foldl (fun balance cell => balance + ckbCellValue cell) 0

/-- `MercuryProvider.getUdtBalance`: full-scan `reduce` of the decoded
UDT amounts of all cells across all pages. -/
def getUdtBalance (src : CellSource) (fuel : Nat) : Nat :=
  (allCells src fuel).foldl (fun acc cell => acc + udtCellValue cell) 0

/-- Sequential reference form of the `scan` / `takeWhile(·, true)` /
`lastValueFrom` pipeline: walk the cells, appending each one, and stop
right after the accumulated amount reaches the threshold.  Proved
equal to `collectAccum` below; the claim proofs go through it. -/
def collectGo (f : ResolvedOutpoint → Nat) (threshold : Nat)
    (acc : CellsAccumulator) : List ResolvedOutpoint → CellsAccumulator
  | [] => acc
  | c :: cs =>
    let acc' := scanStep f acc c
    if acc'.amount < threshold then collectGo f threshold acc' cs else acc'

/-! ### Transaction-wait poller

`MercuryProvider.waitForTransactionCommitted`.  The environment fixes
what each RPC answers at each instant; `Date.now() - start` is the
model's clock, advanced only by `asyncSleep(pollIntervalMs)`. -/

/-- The world as seen by the poller: whether `get_transaction` reports
status `committed` at a given elapsed time, the transaction body (an
opaque token), mercury's tip at a given elapsed time, and the node tip
returned by the single `get_tip_block_number` call. -/
structure WaitEnv where
  committed : Nat → Bool
  transaction : Nat
  mercuryTip : Nat → Nat
  rpcTip : Nat

/-- Phase 1 of the poller: while the elapsed time is within
`timeoutMs`, poll `get_transaction`; on `committed`, record the body
and break; otherwise sleep `pollIntervalMs`.  Returns the result and
the elapsed time at exit.  `fuel` bounds the iterations; the caller
passes enough for every positive interval. -/
def pollCommitted (env : WaitEnv) (pollIntervalMs timeoutMs : Nat) :
    Nat → Nat → Option Nat × Nat
  | 0, now => (none, now)
  | fuel + 1, now =>
    if now ≤ timeoutMs then
      if env.committed now then (some env.transaction, now)
      else pollCommitted env pollIntervalMs timeoutMs fuel (now + pollIntervalMs)
    else (none, now)

/-- Phase 2 of the poller: while the elapsed time — still measured
from the original start — is within `timeoutMs`, poll `get_tip` until
mercury's tip reaches the node tip, sleeping in between.  Returns the
elapsed times of the `get_tip` polls and the final elapsed time. -/
def pollTipCatchUp (env : WaitEnv) (pollIntervalMs timeoutMs : Nat) :
    Nat → Nat → List Nat × Nat
  | 0, now => ([], now)
  | fuel + 1, now =>
    if now ≤ timeoutMs then
      if env.rpcTip ≤ env.mercuryTip now then ([now], now)
      else
        let rest := pollTipCatchUp env pollIntervalMs timeoutMs fuel (now + pollIntervalMs)
        (now :: rest.1, rest.2)
    else ([], now)

/-- `MercuryProvider.waitForTransactionCommitted`: run the two phases
in sequence on one clock started once; the second phase inherits the
elapsed time of the first.  Returns phase 1's result (the committed
body or `null`) together with the elapsed times of phase 2's tip
polls.  `timeoutMs + 1` iterations suffice for any positive
interval. -/
def waitForTransactionCommitted (env : WaitEnv) (pollIntervalMs timeoutMs : Nat) :
    Option Nat × List Nat :=
  let phase1 := pollCommitted env pollIntervalMs timeoutMs (timeoutMs + 1) 0
  let phase2 := pollTipCatchUp env pollIntervalMs timeoutMs (timeoutMs + 1) phase1.2
  (phase1.1, phase2.1)

/-! ### `AcpTransferSudtBuilder`
(`packages/ckit/src/tx-builders/AcpTransferSudtBuilder.ts`). -/

/-- One recipient entry of `TransferSudtOptions`. -/
structure RecipientOption where
  recipient : String
  sudt : Script
  amount : Nat
  policy : String
deriving DecidableEq

/-- `TransferSudtOptions`. -/
structure TransferSudtOptions where
  recipients : List RecipientOption
deriving DecidableEq

/-- `RecipientSameWithSenderError`'s payload. -/
structure RecipientSameWithSenderError where
  address : String
deriving DecidableEq

/-- `AcpTransferSudtBuilder.build`: if some recipient address equals
the sender's, throw `RecipientSameWithSenderError({ address: sender })`;
otherwise delegate to the inner `TransferSudtPwBuilder`, modelled as an
opaque function producing the transaction (an opaque token). -/
def AcpTransferSudtBuilder.build (innerBuild : TransferSudtOptions → String → Nat)
    (options : TransferSudtOptions) (sender : String) :
    Except RecipientSameWithSenderError Nat :=
  match options.recipients.find? (fun option => option.recipient == sender) with
  | some _ => .error { address := sender }
  | none => .ok (innerBuild options sender)

/-! ### Concrete instances used by witnesses and counterexamples -/

/-- A bare cell (no type script, empty payload) of the given capacity. -/
def bareCell (capacity : Nat) : ResolvedOutpoint :=
  { output := { capacity := capacity, type := none }, output_data := [] }

/-- A UDT cell of capacity 200 whose payload holds the given token
amount in the 16-byte little-endian slot. -/
def udtCell (amount : Nat) : ResolvedOutpoint :=
  { output := { capacity := 200
                type := some { code_hash := "0xsudt", hash_type := "type", args := "0x" } }
    output_data := toBytesUInt128LE amount }

/-- A sample lock script. -/
def exLock : Script :=
  { code_hash := "0xsecp", hash_type := "type", args := "0x01" }

/-- A paged source with pages `[[10, 20], [30]]` of bare cells, then
exhaustion. -/
def exCkbSource : CellSource :=
  { get_cells := fun cursor =>
      match cursor with
      | none => { objects := [bareCell 10, bareCell 20], last_cursor := "a" }
      | some "a" => { objects := [bareCell 30], last_cursor := "b" }
      | some _ => { objects := [], last_cursor := "end" } }

/-- A paged source emitting a single bare cell of capacity 100. -/
def oneCellSource : CellSource :=
  { get_cells := fun cursor =>
      match cursor with
      | none => { objects := [bareCell 100], last_cursor := "a" }
      | some _ => { objects := [], last_cursor := "end" } }

/-- A paged source with UDT pages `[[7], [8]]`, then exhaustion. -/
def exUdtSource : CellSource :=
  { get_cells := fun cursor =>
      match cursor with
      | none => { objects := [udtCell 7], last_cursor := "a" }
      | some "a" => { objects := [udtCell 8], last_cursor := "b" }
      | some _ => { objects := [], last_cursor := "end" } }

/-- A wait environment: committed from elapsed time 2 on, mercury tip
already caught up with the node tip. -/
def exWaitEnv : WaitEnv :=
  { committed := fun t => decide (2 ≤ t)
    transaction := 42
    mercuryTip := fun _ => 5
    rpcTip := 5 }

/-- Sample transfer options whose single recipient is `"alice"`. -/
def exTransferOptions : TransferSudtOptions :=
  { recipients := [{ recipient := "alice"
                     sudt := { code_hash := "0xsudt", hash_type := "type", args := "0x" }
                     amount := 5
                     policy := "findAcp" }] }

/-! ### Helper lemmas -/

theorem getLast?_getD_cons (x : CellsAccumulator) (l : List CellsAccumulator)
    (d : CellsAccumulator) : (x :: l).getLast?.getD d = l.getLast?.getD x := by
  induction l generalizing x with
  | nil => rfl
  | cons y ys ih =>
    rw [List.getLast?_cons_cons]
    rcases h : (y :: ys).getLast? with _ | a
    · simp [List.getLast?_eq_none_iff] at h
    · simp

theorem sumBy_nil (f : ResolvedOutpoint → Nat) : sumBy f [] = 0 := rfl

theorem sumBy_append (f : ResolvedOutpoint → Nat) (l₁ l₂ : List ResolvedOutpoint) :
    sumBy f (l₁ ++ l₂) = sumBy f l₁ + sumBy f l₂ := by
  simp [sumBy]

theorem sumBy_take_le (f : ResolvedOutpoint → Nat) (l : List ResolvedOutpoint) (k : Nat) :
    sumBy f (l.take k) ≤ sumBy f l := by
  conv_rhs => rw [← List.take_append_drop k l]
  rw [sumBy_append]
  exact Nat.le_add_right _ _

/-- The accumulator pipeline (`scan` then inclusive `takeWhile` then
last-or-default) equals the sequential walk `collectGo`. -/
theorem twi_scan_eq_go (f : ResolvedOutpoint → Nat) (T : Nat) :
    ∀ (cs : List ResolvedOutpoint) (acc : CellsAccumulator),
      ((takeWhileInclusive (fun a => decide (a.amount < T))
          (scanAccs f acc cs)).getLast?).getD acc = collectGo f T acc cs := by
  intro cs
  induction cs with
  | nil => intro acc; rfl
  | cons c cs ih =>
    intro acc
    show ((takeWhileInclusive _ (scanStep f acc c :: scanAccs f (scanStep f acc c) cs)).getLast?).getD acc = _
    rw [takeWhileInclusive, collectGo]
    by_cases h : (scanStep f acc c).amount < T
    · rw [if_pos (by simpa using h), if_pos h, getLast?_getD_cons, ih]
    · rw [if_neg (by simpa using h), if_neg h]
      rfl

theorem collectAccum_eq_go (f : ResolvedOutpoint → Nat) (T : Nat)
    (cs : List ResolvedOutpoint) :
    collectAccum f T cs = collectGo f T { cells := [], amount := 0 } cs := by
  unfold collectAccum
  exact twi_scan_eq_go f T cs { cells := [], amount := 0 }

/-- `collectGo` keeps the accumulator coherent: the amount is the sum
of the contributions of the collected cells. -/
theorem collectGo_amount (f : ResolvedOutpoint → Nat) (T : Nat) :
    ∀ (cs : List ResolvedOutpoint) (acc : CellsAccumulator),
      acc.amount = sumBy f acc.cells →
      (collectGo f T acc cs).amount = sumBy f (collectGo f T acc cs).cells := by
  intro cs
  induction cs with
  | nil => intro acc h; exact h
  | cons c cs ih =>
    intro acc h
    have hstep : (scanStep f acc c).amount = sumBy f (scanStep f acc c).cells := by
      simp [scanStep, sumBy_append, h, sumBy]
    rw [collectGo]
    by_cases hlt : (scanStep f acc c).amount < T
    · simp only [hlt, if_true]
      exact ih _ hstep
    · simp only [hlt, if_false]
      exact hstep

/-- `collectGo` only ever appends a prefix of the remaining stream. -/
theorem collectGo_cells_take (f : ResolvedOutpoint → Nat) (T : Nat) :
    ∀ (cs : List ResolvedOutpoint) (acc : CellsAccumulator),
      ∃ k, (collectGo f T acc cs).cells = acc.cells ++ cs.take k := by
  intro cs
  induction cs with
  | nil => intro acc; exact ⟨0, by simp [collectGo]⟩
  | cons c cs ih =>
    intro acc
    rw [collectGo]
    by_cases hlt : (scanStep f acc c).amount < T
    · simp only [hlt, if_true]
      obtain ⟨k, hk⟩ := ih (scanStep f acc c)
      exact ⟨k + 1, by simpa [scanStep] using hk⟩
    · simp only [hlt, if_false]
      exact ⟨1, by simp [scanStep]⟩

/-- If the walk ends below the threshold it never truncated: the whole
stream was consumed and summed. -/
theorem collectGo_exhausted (f : ResolvedOutpoint → Nat) (T : Nat) :
    ∀ (cs : List ResolvedOutpoint) (acc : CellsAccumulator),
      (collectGo f T acc cs).amount < T →
      (collectGo f T acc cs).cells = acc.cells ++ cs ∧
        (collectGo f T acc cs).amount = acc.amount + sumBy f cs := by
  intro cs
  induction cs with
  | nil => intro acc _; exact ⟨by simp [collectGo], by simp [collectGo, sumBy_nil]⟩
  | cons c cs ih =>
    intro acc hlt'
    rw [collectGo] at hlt' ⊢
    by_cases hlt : (scanStep f acc c).amount < T
    · simp only [hlt, if_true] at hlt' ⊢
      obtain ⟨h1, h2⟩ := ih _ hlt'
      constructor
      · rw [h1]; simp [scanStep]
      · rw [h2]; simp [scanStep, sumBy, Nat.add_assoc]
    · simp only [hlt, if_false] at hlt' ⊢

/-- The walk's final amount never exceeds the total of the stream. -/
theorem collectGo_amount_le (f : ResolvedOutpoint → Nat) (T : Nat)
    (cs : List ResolvedOutpoint) (acc : CellsAccumulator)
    (h : acc.amount = sumBy f acc.cells) :
    (collectGo f T acc cs).amount ≤ acc.amount + sumBy f cs := by
  obtain ⟨k, hk⟩ := collectGo_cells_take f T cs acc
  rw [collectGo_amount f T cs acc h, hk, sumBy_append, h]
  exact Nat.add_le_add_left (sumBy_take_le f cs k) _

/-- Tightness: if the walk starts below the threshold and ends at or
above it, the result is nonempty and dropping its last cell leaves a
sum below the threshold. -/
theorem collectGo_tight (f : ResolvedOutpoint → Nat) (T : Nat) :
    ∀ (cs : List ResolvedOutpoint) (acc : CellsAccumulator),
      acc.amount = sumBy f acc.cells → acc.amount < T →
      T ≤ (collectGo f T acc cs).amount →
      (collectGo f T acc cs).cells ≠ [] ∧
        sumBy f (collectGo f T acc cs).cells.dropLast < T := by
  intro cs
  induction cs with
  | nil =>
    intro acc _ hlt hge
    rw [collectGo] at hge
    omega
  | cons c cs ih =>
    intro acc hsum hlt hge
    rw [collectGo] at hge ⊢
    have hstep : (scanStep f acc c).amount = sumBy f (scanStep f acc c).cells := by
      simp [scanStep, sumBy_append, hsum, sumBy]
    by_cases hlt' : (scanStep f acc c).amount < T
    · simp only [hlt', if_true] at hge ⊢
      exact ih _ hstep hlt' hge
    · simp only [hlt', if_false] at hge ⊢
      refine ⟨by simp [scanStep], ?_⟩
      have : (scanStep f acc c).cells.dropLast = acc.cells := by
        simp [scanStep]
      rw [this, ← hsum]
      exact hlt

/-- Running-sum invariant: with a positive threshold, every proper
prefix of the collected cells sums below the threshold (no cell is
appended once the threshold is met going into it). -/
theorem collectGo_prefix_sums (f : ResolvedOutpoint → Nat) (T : Nat) :
    ∀ (cs : List ResolvedOutpoint) (acc : CellsAccumulator),
      acc.amount = sumBy f acc.cells →
      (∀ j, j < acc.cells.length → sumBy f (acc.cells.take j) < T) →
      acc.amount < T →
      ∀ j, j < (collectGo f T acc cs).cells.length →
        sumBy f ((collectGo f T acc cs).cells.take j) < T := by
  intro cs
  induction cs with
  | nil =>
    intro acc _ hpre _ j hj
    exact hpre j (by simpa [collectGo] using hj)
  | cons c cs ih =>
    intro acc hsum hpre hlt
    have hstep : (scanStep f acc c).amount = sumBy f (scanStep f acc c).cells := by
      simp [scanStep, sumBy_append, hsum, sumBy]
    have hpre' : ∀ j, j < (scanStep f acc c).cells.length →
        sumBy f ((scanStep f acc c).cells.take j) < T := by
      intro j hj
      simp only [scanStep, List.length_append, List.length_cons, List.length_nil] at hj
      rcases Nat.lt_or_ge j acc.cells.length with hcase | hcase
      · rw [scanStep, List.take_append_of_le_length (Nat.le_of_lt hcase)]
        exact hpre j hcase
      · have hj' : j = acc.cells.length := Nat.le_antisymm (Nat.lt_succ_iff.mp hj) hcase
        rw [scanStep]
        simp only [hj']
        rw [List.take_left]
        rw [← hsum]
        exact hlt
    rw [collectGo]
    by_cases hlt' : (scanStep f acc c).amount < T
    · simp only [hlt', if_true]
      exact ih _ hstep hpre' hlt'
    · simp only [hlt', if_false]
      exact hpre'

/-- Zero threshold: the walk still consumes and keeps the first cell,
because `scan` emits after appending and the `takeWhile` is
inclusive. -/
theorem collectGo_zero (f : ResolvedOutpoint → Nat) (acc : CellsAccumulator)
    (c : ResolvedOutpoint) (cs : List ResolvedOutpoint) :
    collectGo f 0 acc (c :: cs) = scanStep f acc c := by
  rw [collectGo]
  simp

/-- Every accumulator `scan` emits is coherent (amount = sum of its
cells' contributions) and holds a prefix of the stream scanned so
far. -/
theorem scanAccs_inv (f : ResolvedOutpoint → Nat) :
    ∀ (cs : List ResolvedOutpoint) (acc a : CellsAccumulator),
      acc.amount = sumBy f acc.cells → a ∈ scanAccs f acc cs →
      a.amount = sumBy f a.cells ∧ ∃ rest, acc.cells ++ cs = a.cells ++ rest := by
  intro cs
  induction cs with
  | nil => intro acc a _ ha; simp [scanAccs] at ha
  | cons c cs ih =>
    intro acc a hsum ha
    have hstep : (scanStep f acc c).amount = sumBy f (scanStep f acc c).cells := by
      simp [scanStep, sumBy_append, hsum, sumBy]
    rw [scanAccs] at ha
    rcases List.mem_cons.mp ha with rfl | ha
    · exact ⟨hstep, ⟨cs, by simp [scanStep]⟩⟩
    · obtain ⟨h1, rest, h2⟩ := ih (scanStep f acc c) a hstep ha
      refine ⟨h1, rest, ?_⟩
      rw [← h2]
      simp [scanStep]

/-- The first entry of a pagination trace carries the cursor the trace
was started with. -/
theorem fetchTrace_head_request (src : CellSource) :
    ∀ (fuel : Nat) (c : Option String) (x : Option String × Page),
      x ∈ (fetchTrace src fuel c).head? → x.1 = c := by
  intro fuel c x hx
  cases fuel with
  | zero => simp [fetchTrace] at hx
  | succ fuel =>
    rw [fetchTrace] at hx
    by_cases h : (src.get_cells c).objects.isEmpty
    · rw [if_pos h] at hx
      simp only [List.head?_cons, Option.mem_def, Option.some.injEq] at hx
      rw [← hx]
    · rw [if_neg h] at hx
      simp only [List.head?_cons, Option.mem_def, Option.some.injEq] at hx
      rw [← hx]

/-- Each request of a pagination trace after the first carries exactly
the `last_cursor` of the immediately preceding response. -/
theorem fetchTrace_chain (src : CellSource) :
    ∀ (fuel : Nat) (c : Option String),
      List.Chain' (fun a b => b.1 = some a.2.last_cursor) (fetchTrace src fuel c) := by
  intro fuel
  induction fuel with
  | zero => intro c; simp [fetchTrace]
  | succ fuel ih =>
    intro c
    rw [fetchTrace]
    by_cases h : (src.get_cells c).objects.isEmpty
    · rw [if_pos h]
      simp
    · rw [if_neg h]
      refine List.chain'_cons'.mpr ⟨?_, ih _⟩
      intro y hy
      exact fetchTrace_head_request src fuel _ y hy

/-- Every response before the last one in a pagination trace is
nonempty: fetching stops at the first empty page. -/
theorem fetchTrace_dropLast_nonempty (src : CellSource) :
    ∀ (fuel : Nat) (c : Option String) (x : Option String × Page),
      x ∈ (fetchTrace src fuel c).dropLast → x.2.objects ≠ [] := by
  intro fuel
  induction fuel with
  | zero => intro c x hx; simp [fetchTrace] at hx
  | succ fuel ih =>
    intro c x hx
    rw [fetchTrace] at hx
    by_cases h : (src.get_cells c).objects.isEmpty
    · rw [if_pos h] at hx
      simp at hx
    · rw [if_neg h] at hx
      rcases hrest : fetchTrace src fuel (some (src.get_cells c).last_cursor) with _ | ⟨r, rs⟩
      · rw [hrest] at hx
        simp at hx
      · rw [hrest, List.dropLast_cons₂] at hx
        rcases List.mem_cons.mp hx with rfl | hx
        · simpa [List.isEmpty_iff] using h
        · exact ih _ x (by rw [hrest]; exact hx)

/-- Every response in a pagination trace is what the source answers to
that entry's request. -/
theorem fetchTrace_response (src : CellSource) :
    ∀ (fuel : Nat) (c : Option String) (x : Option String × Page),
      x ∈ fetchTrace src fuel c → x.2 = src.get_cells x.1 := by
  intro fuel
  induction fuel with
  | zero => intro c x hx; simp [fetchTrace] at hx
  | succ fuel ih =>
    intro c x hx
    rw [fetchTrace] at hx
    by_cases h : (src.get_cells c).objects.isEmpty
    · rw [if_pos h] at hx
      rcases List.mem_singleton.mp hx with rfl
      rfl
    · rw [if_neg h] at hx
      rcases List.mem_cons.mp hx with rfl | hx
      · rfl
      · exact ih _ x hx

/-- Little-endian round trip: decoding the `k`-byte encoding of any
integer below `256 ^ k` gives the integer back. -/
theorem leDecode_leEncode : ∀ (k n : Nat), n < 256 ^ k → leDecode (leEncode k n) = n := by
  intro k
  induction k with
  | zero =>
    intro n hn
    interval_cases n
    rfl
  | succ k ih =>
    intro n hn
    rw [leEncode, leDecode]
    rw [ih (n / 256) ?_]
    · exact Nat.mod_add_div n 256
    · rw [Nat.div_lt_iff_lt_mul (by norm_num)]
      rw [← pow_succ]
      exact hn

/-- Phase 1 of the poller only ever reports the transaction body. -/
theorem pollCommitted_some (env : WaitEnv) (i T : Nat) :
    ∀ (fuel now v : Nat), (pollCommitted env i T fuel now).1 = some v →
      v = env.transaction := by
  intro fuel
  induction fuel with
  | zero => intro now v h; simp [pollCommitted] at h
  | succ fuel ih =>
    intro now v h
    rw [pollCommitted] at h
    by_cases h1 : now ≤ T
    · rw [if_pos h1] at h
      by_cases h2 : env.committed now
      · rw [if_pos h2] at h
        exact (Option.some.injEq _ _ ▸ h).symm
      · rw [if_neg h2] at h
        exact ih _ v h
    · rw [if_neg h1] at h
      simp at h

/-- Phase 1 finds the transaction exactly when some poll instant
within the budget (and the fuel bound) reports `committed`. -/
theorem pollCommitted_isSome_iff (env : WaitEnv) (i T : Nat) :
    ∀ (fuel now : Nat), (pollCommitted env i T fuel now).1.isSome = true ↔
      ∃ k, k < fuel ∧ now + k * i ≤ T ∧ env.committed (now + k * i) = true := by
  intro fuel
  induction fuel with
  | zero =>
    intro now
    simp [pollCommitted]
  | succ fuel ih =>
    intro now
    rw [pollCommitted]
    by_cases h1 : now ≤ T
    · rw [if_pos h1]
      by_cases h2 : env.committed now
      · rw [if_pos h2]
        constructor
        · intro _
          exact ⟨0, Nat.succ_pos _, by simpa using h1, by simpa using h2⟩
        · intro _
          rfl
      · rw [if_neg h2]
        rw [ih]
        constructor
        · rintro ⟨k, hk, hle, hc⟩
          refine ⟨k + 1, Nat.succ_lt_succ hk, ?_, ?_⟩
          · rw [Nat.succ_mul, ← Nat.add_assoc, Nat.add_right_comm]
            exact hle
          · rw [Nat.succ_mul, ← Nat.add_assoc, Nat.add_right_comm]
            exact hc
        · rintro ⟨k, hk, hle, hc⟩
          cases k with
          | zero =>
            simp only [Nat.zero_mul, Nat.add_zero] at hc
            exact absurd hc (by simpa using h2)
          | succ k =>
            refine ⟨k, Nat.lt_of_succ_lt_succ hk, ?_, ?_⟩
            · rw [Nat.add_right_comm, Nat.add_assoc, ← Nat.succ_mul]
              exact hle
            · rw [Nat.add_right_comm, Nat.add_assoc, ← Nat.succ_mul]
              exact hc
    · rw [if_neg h1]
      simp only [Option.isSome_none, Bool.false_eq_true, false_iff]
      rintro ⟨k, _, hle, _⟩
      exact h1 (Nat.le_trans (Nat.le_add_right now (k * i)) hle)

/-- Every tip poll of phase 2 happens no earlier than the phase's
start instant and within the shared timeout budget. -/
theorem pollTipCatchUp_mem (env : WaitEnv) (i T : Nat) :
    ∀ (fuel now t : Nat), t ∈ (pollTipCatchUp env i T fuel now).1 →
      now ≤ t ∧ t ≤ T := by
  intro fuel
  induction fuel with
  | zero => intro now t ht; simp [pollTipCatchUp] at ht
  | succ fuel ih =>
    intro now t ht
    rw [pollTipCatchUp] at ht
    by_cases h1 : now ≤ T
    · rw [if_pos h1] at ht
      by_cases h2 : env.rpcTip ≤ env.mercuryTip now
      · rw [if_pos h2] at ht
        rcases List.mem_singleton.mp ht with rfl
        exact ⟨Nat.le_refl _, h1⟩
      · rw [if_neg h2] at ht
        rcases List.mem_cons.mp ht with rfl | ht
        · exact ⟨Nat.le_refl _, h1⟩
        · obtain ⟨ha, hb⟩ := ih _ t ht
          exact ⟨Nat.le_trans (Nat.le_add_right now i) ha, hb⟩
    · rw [if_neg h1] at ht
      simp at ht

/-- `reduce`-style left fold of contributions equals the initial value
plus the sum of contributions. -/
theorem foldl_add_sumBy (f : ResolvedOutpoint → Nat) :
    ∀ (l : List ResolvedOutpoint) (a : Nat),
      l.foldl (fun acc c => acc + f c) a = a + sumBy f l := by
  intro l
  induction l with
  | nil => intro a; simp [sumBy]
  | cons c cs ih =>
    intro a
    rw [List.foldl_cons, ih]
    simp [sumBy, Nat.add_assoc]

theorem leEncode_length : ∀ (k n : Nat), (leEncode k n).length = k := by
  intro k
  induction k with
  | zero => intro n; rfl
  | succ k ih => intro n; rw [leEncode, List.length_cons, ih]

/-- The properties of a successful collection run, stated on the
sequential walk: the total reaches the threshold; with a positive
threshold every proper prefix stays below it; at threshold zero at
most one cell is kept; and a nonempty result is tight (singleton, or
dropping the last cell falls below the threshold). -/
theorem collectGo_ok_props (f : ResolvedOutpoint → Nat) (T : Nat)
    (ms : List ResolvedOutpoint)
    (hge : ¬(collectGo f T { cells := [], amount := 0 } ms).amount < T) :
    T ≤ sumBy f (collectGo f T { cells := [], amount := 0 } ms).cells ∧
      (0 < T → ∀ j, j < (collectGo f T { cells := [], amount := 0 } ms).cells.length →
        sumBy f ((collectGo f T { cells := [], amount := 0 } ms).cells.take j) < T) ∧
      (T = 0 → (collectGo f T { cells := [], amount := 0 } ms).cells.length ≤ 1) ∧
      ((collectGo f T { cells := [], amount := 0 } ms).cells ≠ [] →
        (collectGo f T { cells := [], amount := 0 } ms).cells.length = 1 ∨
          sumBy f (collectGo f T { cells := [], amount := 0 } ms).cells.dropLast < T) := by
  have hinit : (({ cells := [], amount := 0 } : CellsAccumulator)).amount =
      sumBy f ({ cells := [], amount := 0 } : CellsAccumulator).cells := rfl
  have hamount := collectGo_amount f T ms { cells := [], amount := 0 } hinit
  have hlen0 : T = 0 → (collectGo f T { cells := [], amount := 0 } ms).cells.length ≤ 1 := by
    rintro rfl
    cases ms with
    | nil => simp [collectGo]
    | cons c cs =>
      rw [collectGo_zero]
      simp [scanStep]
  refine ⟨?_, ?_, hlen0, ?_⟩
  · rw [← hamount]
    exact Nat.le_of_not_lt hge
  · intro hT j hj
    exact collectGo_prefix_sums f T ms { cells := [], amount := 0 } hinit
      (by intro j hj; simp at hj) hT j hj
  · intro hne
    cases T with
    | zero =>
      left
      have h1 := hlen0 rfl
      have h2 : 0 < (collectGo f 0 { cells := [], amount := 0 } ms).cells.length :=
        List.length_pos.mpr hne
      omega
    | succ T' =>
      right
      exact (collectGo_tight f (T' + 1) ms { cells := [], amount := 0 } hinit
        (Nat.succ_pos T') (Nat.le_of_not_lt hge)).2

/-- Claim C1: if native collection succeeds, the returned cells'
cumulative capacity is at least `minimalCapacity`, and — whenever the
sequence has a last element — either it is the only element, or the
sequence without it sums below `minimalCapacity`. -/
theorem claim_C1 (src : CellSource) (fuel : Nat) (lock : Script)
    (minimalCapacity : Nat) (cells : List ResolvedOutpoint)
    (h : collectCkbLiveCells src fuel lock minimalCapacity = .ok cells) :
    minimalCapacity ≤ sumBy ckbCellValue cells ∧
      (cells ≠ [] → cells.length = 1 ∨
        sumBy ckbCellValue cells.dropLast < minimalCapacity) := by
  simp only [collectCkbLiveCells, collectAccum_eq_go] at h
  by_cases hlt : (collectGo ckbCellValue minimalCapacity { cells := [], amount := 0 }
      (ckbMatchedCells src fuel)).amount < minimalCapacity
  · rw [if_pos hlt] at h
    simp at h
  · rw [if_neg hlt] at h
    simp only [Except.ok.injEq] at h
    subst h
    obtain ⟨h1, _, _, h4⟩ := collectGo_ok_props ckbCellValue minimalCapacity
      (ckbMatchedCells src fuel) hlt
    exact ⟨h1, h4⟩

/-- Claim C1 witness: pages `[[10, 20], [30]]` with threshold 25
return `[10, 20]`, which satisfies both tightness conjuncts. -/
theorem claim_C1_witness :
    25 ≤ sumBy ckbCellValue [bareCell 10, bareCell 20] ∧
      ([bareCell 10, bareCell 20] ≠ [] → [bareCell 10, bareCell 20].length = 1 ∨
        sumBy ckbCellValue [bareCell 10, bareCell 20].dropLast < 25) :=
  claim_C1 exCkbSource 5 exLock 25 [bareCell 10, bareCell 20] rfl

/-- Claim C2 counterexample: with threshold 0 and a source holding one
matching cell, `collectCkbLiveCells` returns that cell — not the empty
sequence the claim demands — because `scan` emits only after appending
a cell and the inclusive `takeWhile` keeps the first emission. -/
theorem claim_C2_counterexample :
    collectCkbLiveCells oneCellSource 3 exLock 0 = .ok [bareCell 100] ∧
      [bareCell 100] ≠ ([] : List ResolvedOutpoint) :=
  ⟨rfl, by simp⟩

/-- Claim C2 as amended: in both collect operations the crossing cell
is included (the total reaches the threshold); for a positive
threshold no cell is appended once the running sum already meets it
going in (every proper prefix sums below the threshold); for
threshold 0 the result is not always empty, but holds at most one
cell — the first matching cell is still consumed and included. -/
theorem claim_C2_amended :
    (∀ (src : CellSource) (fuel : Nat) (lock : Script) (T : Nat)
        (cells : List ResolvedOutpoint),
      collectCkbLiveCells src fuel lock T = .ok cells →
        T ≤ sumBy ckbCellValue cells ∧
          (0 < T → ∀ j, j < cells.length → sumBy ckbCellValue (cells.take j) < T) ∧
          (T = 0 → cells.length ≤ 1)) ∧
    (∀ (src : CellSource) (fuel : Nat) (lock : Script) (T : Nat)
        (cells : List ResolvedOutpoint),
      collectUdtCells src fuel lock T = .ok cells →
        T ≤ sumBy udtCellValue cells ∧
          (0 < T → ∀ j, j < cells.length → sumBy udtCellValue (cells.take j) < T) ∧
          (T = 0 → cells.length ≤ 1)) := by
  constructor
  · intro src fuel lock T cells h
    simp only [collectCkbLiveCells, collectAccum_eq_go] at h
    by_cases hlt : (collectGo ckbCellValue T { cells := [], amount := 0 }
        (ckbMatchedCells src fuel)).amount < T
    · rw [if_pos hlt] at h
      simp at h
    · rw [if_neg hlt] at h
      simp only [Except.ok.injEq] at h
      subst h
      obtain ⟨h1, h2, h3, _⟩ := collectGo_ok_props ckbCellValue T
        (ckbMatchedCells src fuel) hlt
      exact ⟨h1, h2, h3⟩
  · intro src fuel lock T cells h
    simp only [collectUdtCells, collectAccum_eq_go] at h
    by_cases hlt : (collectGo udtCellValue T { cells := [], amount := 0 }
        (allCells src fuel)).amount < T
    · rw [if_pos hlt] at h
      simp at h
    · rw [if_neg hlt] at h
      simp only [Except.ok.injEq] at h
      subst h
      obtain ⟨h1, h2, h3, _⟩ := collectGo_ok_props udtCellValue T
        (allCells src fuel) hlt
      exact ⟨h1, h2, h3⟩

/-- Claim C2 witness: the amended statement applied to the UDT pages
`[[7], [8]]` with threshold 10, whose collection returns both cells. -/
theorem claim_C2_witness :
    10 ≤ sumBy udtCellValue [udtCell 7, udtCell 8] ∧
      (0 < 10 → ∀ j, j < [udtCell 7, udtCell 8].length →
        sumBy udtCellValue ([udtCell 7, udtCell 8].take j) < 10) ∧
      (10 = 0 → [udtCell 7, udtCell 8].length ≤ 1) :=
  claim_C2_amended.2 exUdtSource 5 exLock 10 [udtCell 7, udtCell 8] rfl

/-- Claim C3: each collector fails exactly when the total contribution
of all matching cells across all pages is below the threshold; the
error then carries the lock filter, the requested amount, and the true
total as `actual` — so insufficiency is never reported before
exhaustion. -/
theorem claim_C3 :
    (∀ (src : CellSource) (fuel : Nat) (lock : Script) (T : Nat) (e : NoEnoughCkbError),
      collectCkbLiveCells src fuel lock T = .error e →
        e.lock = lock ∧ e.expected = T ∧
          e.actual = sumBy ckbCellValue (ckbMatchedCells src fuel) ∧
          sumBy ckbCellValue (ckbMatchedCells src fuel) < T) ∧
    (∀ (src : CellSource) (fuel : Nat) (lock : Script) (T : Nat),
      sumBy ckbCellValue (ckbMatchedCells src fuel) < T →
        collectCkbLiveCells src fuel lock T =
          .error { lock := lock, expected := T,
                   actual := sumBy ckbCellValue (ckbMatchedCells src fuel) }) ∧
    (∀ (src : CellSource) (fuel : Nat) (lock : Script) (T : Nat) (e : NoEnoughUdtError),
      collectUdtCells src fuel lock T = .error e →
        e.lock = lock ∧ e.expected = T ∧
          e.actual = sumBy udtCellValue (allCells src fuel) ∧
          sumBy udtCellValue (allCells src fuel) < T) ∧
    (∀ (src : CellSource) (fuel : Nat) (lock : Script) (T : Nat),
      sumBy udtCellValue (allCells src fuel) < T →
        collectUdtCells src fuel lock T =
          .error { lock := lock, expected := T,
                   actual := sumBy udtCellValue (allCells src fuel) }) := by
  have key : ∀ (f : ResolvedOutpoint → Nat) (T : Nat) (ms : List ResolvedOutpoint),
      (collectGo f T { cells := [], amount := 0 } ms).amount < T →
      (collectGo f T { cells := [], amount := 0 } ms).amount = sumBy f ms := by
    intro f T ms hlt
    have := (collectGo_exhausted f T ms { cells := [], amount := 0 } hlt).2
    simpa using this
  have keyle : ∀ (f : ResolvedOutpoint → Nat) (T : Nat) (ms : List ResolvedOutpoint),
      sumBy f ms < T → (collectGo f T { cells := [], amount := 0 } ms).amount < T := by
    intro f T ms htot
    have hle := collectGo_amount_le f T ms { cells := [], amount := 0 } rfl
    simp only [Nat.zero_add] at hle
    exact Nat.lt_of_le_of_lt hle htot
  refine ⟨?_, ?_, ?_, ?_⟩
  · intro src fuel lock T e h
    simp only [collectCkbLiveCells, collectAccum_eq_go] at h
    by_cases hlt : (collectGo ckbCellValue T { cells := [], amount := 0 }
        (ckbMatchedCells src fuel)).amount < T
    · rw [if_pos hlt] at h
      simp only [Except.error.injEq] at h
      rw [← h]
      exact ⟨rfl, rfl, key _ _ _ hlt, by rw [← key _ _ _ hlt]; exact hlt⟩
    · rw [if_neg hlt] at h
      simp at h
  · intro src fuel lock T htot
    simp only [collectCkbLiveCells, collectAccum_eq_go]
    have hlt := keyle ckbCellValue T (ckbMatchedCells src fuel) htot
    rw [if_pos hlt, key _ _ _ hlt]
  · intro src fuel lock T e h
    simp only [collectUdtCells, collectAccum_eq_go] at h
    by_cases hlt : (collectGo udtCellValue T { cells := [], amount := 0 }
        (allCells src fuel)).amount < T
    · rw [if_pos hlt] at h
      simp only [Except.error.injEq] at h
      rw [← h]
      exact ⟨rfl, rfl, key _ _ _ hlt, by rw [← key _ _ _ hlt]; exact hlt⟩
    · rw [if_neg hlt] at h
      simp at h
  · intro src fuel lock T htot
    simp only [collectUdtCells, collectAccum_eq_go]
    have hlt := keyle udtCellValue T (allCells src fuel) htot
    rw [if_pos hlt, key _ _ _ hlt]

/-- Claim C3 witness: pages `[[10, 20], [30]]` with threshold 100 fail
with the lock, the requested 100, and `actual` 60 — the full total. -/
theorem claim_C3_witness :
    collectCkbLiveCells exCkbSource 5 exLock 100 =
      .error { lock := exLock, expected := 100,
               actual := sumBy ckbCellValue (ckbMatchedCells exCkbSource 5) } :=
  claim_C3.2.1 exCkbSource 5 exLock 100 (by decide)

/-- Claim C4: native collection output never contains a cell with a
type script, and the native search key restricts `output_data` length
to the range `['0x0', '0x1')`. -/
theorem claim_C4 :
    (∀ (src : CellSource) (fuel : Nat) (lock : Script) (T : Nat)
        (cells : List ResolvedOutpoint) (c : ResolvedOutpoint),
      collectCkbLiveCells src fuel lock T = .ok cells → c ∈ cells →
        c.output.type = none) ∧
    (∀ lock : Script,
      (ckbSearchKey lock).filter.output_data_len_range = some ("0x0", "0x1")) := by
  constructor
  · intro src fuel lock T cells c h hc
    simp only [collectCkbLiveCells, collectAccum_eq_go] at h
    by_cases hlt : (collectGo ckbCellValue T { cells := [], amount := 0 }
        (ckbMatchedCells src fuel)).amount < T
    · rw [if_pos hlt] at h
      simp at h
    · rw [if_neg hlt] at h
      simp only [Except.ok.injEq] at h
      subst h
      obtain ⟨k, hk⟩ := collectGo_cells_take ckbCellValue T (ckbMatchedCells src fuel)
        { cells := [], amount := 0 }
      rw [hk] at hc
      simp only [List.nil_append] at hc
      have hmem : c ∈ ckbMatchedCells src fuel := List.take_subset k _ hc
      have := (List.mem_filter.mp hmem).2
      simpa [Option.isNone_iff_eq_none] using this
  · intro lock
    rfl

/-- Claim C4 witness: the successful run over `[[10, 20], [30]]` with
threshold 25 yields cells whose type script is absent. -/
theorem claim_C4_witness : (bareCell 10).output.type = none :=
  claim_C4.1 exCkbSource 5 exLock 25 [bareCell 10, bareCell 20] (bareCell 10) rfl
    (by decide)

/-- Claim C5: the UDT balance accumulates, per cell, the unsigned
integer decoded little-endian from the first 16 bytes of
`output_data` — not the capacity — and the 16-byte little-endian
encoding round-trips through the decoder for every value that fits. -/
theorem claim_C5 :
    (∀ (src : CellSource) (fuel : Nat),
      getUdtBalance src fuel = sumBy udtCellValue (allCells src fuel)) ∧
    (∀ c : ResolvedOutpoint, udtCellValue c = leDecode (c.output_data.take 16)) ∧
    (∀ n : Nat, n < 2 ^ 128 → toBigUInt128LE (toBytesUInt128LE n) = n) := by
  refine ⟨?_, ?_, ?_⟩
  · intro src fuel
    rw [getUdtBalance, foldl_add_sumBy, Nat.zero_add]
  · intro c
    rfl
  · intro n hn
    have hn' : n < 256 ^ 16 := by
      rw [show (256 : Nat) ^ 16 = 2 ^ 128 by norm_num]
      exact hn
    rw [toBigUInt128LE, toBytesUInt128LE]
    rw [List.take_of_length_le (by rw [leEncode_length])]
    exact leDecode_leEncode 16 n hn'

/-- Claim C5 witness: the sample UDT pages sum to 15 through the
decoder, and 12345 survives the 16-byte little-endian round trip. -/
theorem claim_C5_witness :
    getUdtBalance exUdtSource 5 = sumBy udtCellValue (allCells exUdtSource 5) ∧
      toBigUInt128LE (toBytesUInt128LE 12345) = 12345 :=
  ⟨claim_C5.1 exUdtSource 5, claim_C5.2.2 12345 (by norm_num)⟩

/-- Claim C6: both balance queries are full scans — they return the
sum of the contribution of every matching cell across all pages and
cannot fail on insufficiency (they produce a number for every input);
over pages `[[10, 20], [30]]` the native balance is 60. -/
theorem claim_C6 :
    (∀ (src : CellSource) (fuel : Nat),
      getCkbLiveCellsBalance src fuel = sumBy ckbCellValue (ckbMatchedCells src fuel)) ∧
    (∀ (src : CellSource) (fuel : Nat),
      getUdtBalance src fuel = sumBy udtCellValue (allCells src fuel)) ∧
    getCkbLiveCellsBalance exCkbSource 5 = 60 := by
  refine ⟨?_, ?_, by decide⟩
  · intro src fuel
    rw [getCkbLiveCellsBalance, foldl_add_sumBy, Nat.zero_add]
  · intro src fuel
    rw [getUdtBalance, foldl_add_sumBy, Nat.zero_add]

/-- Claim C7: every intermediate accumulator emitted by `scan` in
either collect operation is coherent — its `amount` equals the sum of
the contributing values of its `cells` (capacity for the native
collector, decoded token amount for the UDT collector) — and its
`cells` list is a sublist (relative order preserved) of the cells the
paged source emitted. -/
theorem claim_C7 :
    (∀ (src : CellSource) (fuel : Nat) (a : CellsAccumulator),
      a ∈ scanAccs ckbCellValue { cells := [], amount := 0 } (ckbMatchedCells src fuel) →
        a.amount = sumBy ckbCellValue a.cells ∧
          List.Sublist a.cells (allCells src fuel)) ∧
    (∀ (src : CellSource) (fuel : Nat) (a : CellsAccumulator),
      a ∈ scanAccs udtCellValue { cells := [], amount := 0 } (allCells src fuel) →
        a.amount = sumBy udtCellValue a.cells ∧
          List.Sublist a.cells (allCells src fuel)) := by
  constructor
  · intro src fuel a ha
    obtain ⟨h1, rest, h2⟩ := scanAccs_inv ckbCellValue (ckbMatchedCells src fuel)
      { cells := [], amount := 0 } a rfl ha
    simp only [List.nil_append] at h2
    refine ⟨h1, ?_⟩
    have hsub : List.Sublist a.cells (ckbMatchedCells src fuel) := by
      rw [h2]
      exact List.sublist_append_left a.cells rest
    exact hsub.trans (List.filter_sublist _)
  · intro src fuel a ha
    obtain ⟨h1, rest, h2⟩ := scanAccs_inv udtCellValue (allCells src fuel)
      { cells := [], amount := 0 } a rfl ha
    simp only [List.nil_append] at h2
    refine ⟨h1, ?_⟩
    rw [h2]
    exact List.sublist_append_left a.cells rest

/-- Claim C7 witness: the first accumulator of the native scan over
pages `[[10, 20], [30]]` is coherent and order-preserving. -/
theorem claim_C7_witness :
    ({ cells := [bareCell 10], amount := 10 } : CellsAccumulator).amount =
        sumBy ckbCellValue ({ cells := [bareCell 10], amount := 10 } : CellsAccumulator).cells ∧
      List.Sublist ({ cells := [bareCell 10], amount := 10 } : CellsAccumulator).cells
        (allCells exCkbSource 5) :=
  claim_C7.1 exCkbSource 5 { cells := [bareCell 10], amount := 10 } (by decide)

/-- Claim C8: in the pagination trace of any collect or balance
operation, the first request carries no cursor, every later request's
`after_cursor` is exactly the `last_cursor` of the immediately
preceding response (fetches are chained one at a time, so at most one
is outstanding), every response is the source's answer to that
request, and every response before the last is nonempty — fetching
stops at the first empty page. -/
theorem claim_C8 (src : CellSource) (fuel : Nat) :
    (∀ x ∈ (fetchTrace src fuel none).head?, x.1 = none) ∧
    List.Chain' (fun a b => b.1 = some a.2.last_cursor) (fetchTrace src fuel none) ∧
    (∀ x ∈ (fetchTrace src fuel none).dropLast, x.2.objects ≠ []) ∧
    (∀ x ∈ fetchTrace src fuel none, x.2 = src.get_cells x.1) :=
  ⟨fun x hx => fetchTrace_head_request src fuel none x hx,
   fetchTrace_chain src fuel none,
   fun x hx => fetchTrace_dropLast_nonempty src fuel none x hx,
   fun x hx => fetchTrace_response src fuel none x hx⟩

/-- Claim C8 witness: in the concrete trace over `[[10, 20], [30]]`,
the second request's cursor is the first response's `last_cursor`. -/
theorem claim_C8_witness :
    ((some "a", exCkbSource.get_cells (some "a")) : Option String × Page).2 =
      exCkbSource.get_cells ((some "a", exCkbSource.get_cells (some "a")) : Option String × Page).1 :=
  (claim_C8 exCkbSource 5).2.2.2 (some "a", exCkbSource.get_cells (some "a")) (by decide)

/-- Claim C9: the poller reports the transaction body exactly when
some poll instant within the time budget sees status `committed`
(otherwise the result is `none`, no error), and every tip poll of the
second phase happens between the first phase's end instant and the
shared timeout — both phases run on the one clock started once. -/
theorem claim_C9 (env : WaitEnv) (pollIntervalMs timeoutMs : Nat)
    (h : 0 < pollIntervalMs) :
    ((waitForTransactionCommitted env pollIntervalMs timeoutMs).1.isSome = true ↔
      ∃ k, k * pollIntervalMs ≤ timeoutMs ∧
        env.committed (k * pollIntervalMs) = true) ∧
    (∀ v, (waitForTransactionCommitted env pollIntervalMs timeoutMs).1 = some v →
      v = env.transaction) ∧
    (∀ t ∈ (waitForTransactionCommitted env pollIntervalMs timeoutMs).2,
      (pollCommitted env pollIntervalMs timeoutMs (timeoutMs + 1) 0).2 ≤ t ∧
        t ≤ timeoutMs) := by
  refine ⟨?_, ?_, ?_⟩
  · rw [waitForTransactionCommitted]
    rw [pollCommitted_isSome_iff]
    constructor
    · rintro ⟨k, _, hle, hc⟩
      exact ⟨k, by simpa using hle, by simpa using hc⟩
    · rintro ⟨k, hle, hc⟩
      refine ⟨k, ?_, by simpa using hle, by simpa using hc⟩
      have hk : k ≤ k * pollIntervalMs := Nat.le_mul_of_pos_right k h
      exact Nat.lt_succ_of_le (Nat.le_trans hk hle)
  · intro v hv
    rw [waitForTransactionCommitted] at hv
    exact pollCommitted_some env pollIntervalMs timeoutMs (timeoutMs + 1) 0 v hv
  · intro t ht
    rw [waitForTransactionCommitted] at ht
    exact pollTipCatchUp_mem env pollIntervalMs timeoutMs (timeoutMs + 1) _ t ht

/-- Claim C9 witness: with interval 1 and timeout 10 against an
environment committing from instant 2, the poller finds the body. -/
theorem claim_C9_witness :
    (waitForTransactionCommitted exWaitEnv 1 10).1.isSome = true :=
  (claim_C9 exWaitEnv 1 10 (by decide)).1.mpr ⟨2, by decide, by decide⟩

/-- Claim C10: `AcpTransferSudtBuilder.build` throws
`RecipientSameWithSenderError` carrying the sender's address exactly
when some recipient equals the sender, and otherwise — and only
otherwise — delegates to the inner builder's transaction. -/
theorem claim_C10 (innerBuild : TransferSudtOptions → String → Nat)
    (options : TransferSudtOptions) (sender : String) :
    (∀ e, AcpTransferSudtBuilder.build innerBuild options sender = .error e →
      e.address = sender) ∧
    ((∃ e, AcpTransferSudtBuilder.build innerBuild options sender = .error e) ↔
      ∃ o ∈ options.recipients, o.recipient = sender) ∧
    (AcpTransferSudtBuilder.build innerBuild options sender =
        .ok (innerBuild options sender) ↔
      ¬∃ o ∈ options.recipients, o.recipient = sender) := by
  rcases hfind : options.recipients.find? (fun option => option.recipient == sender)
    with _ | o
  · have hnone : ∀ o ∈ options.recipients, o.recipient ≠ sender := by
      intro o ho
      have := List.find?_eq_none.mp hfind o ho
      simpa using this
    have hbuild : AcpTransferSudtBuilder.build innerBuild options sender =
        .ok (innerBuild options sender) := by
      rw [AcpTransferSudtBuilder.build, hfind]
    refine ⟨?_, ?_, ?_⟩
    · intro e he
      rw [hbuild] at he
      simp at he
    · constructor
      · rintro ⟨e, he⟩
        rw [hbuild] at he
        simp at he
      · rintro ⟨o, ho, hrec⟩
        exact absurd hrec (hnone o ho)
    · constructor
      · rintro _ ⟨o, ho, hrec⟩
        exact absurd hrec (hnone o ho)
      · intro _
        exact hbuild
  · have hmem : o ∈ options.recipients := List.mem_of_find?_eq_some hfind
    have hrec : o.recipient = sender := by
      have := List.find?_some hfind
      simpa using this
    have hbuild : AcpTransferSudtBuilder.build innerBuild options sender =
        .error { address := sender } := by
      rw [AcpTransferSudtBuilder.build, hfind]
    refine ⟨?_, ?_, ?_⟩
    · intro e he
      rw [hbuild] at he
      simp only [Except.error.injEq] at he
      rw [← he]
    · constructor
      · intro _
        exact ⟨o, hmem, hrec⟩
      · intro _
        exact ⟨{ address := sender }, hbuild⟩
    · constructor
      · intro hok
        rw [hbuild] at hok
        simp at hok
      · intro hno
        exact absurd ⟨o, hmem, hrec⟩ hno

/-- Claim C10 witness: with the single recipient `"alice"` and sender
`"alice"`, `build` throws the error carrying the sender address. -/
theorem claim_C10_witness :
    ({ address := "alice" } : RecipientSameWithSenderError).address = "alice" :=
  (claim_C10 (fun _ _ => 7) exTransferOptions "alice").1 { address := "alice" } rfl

end Ckit
